import Mathlib

/-!
Shallow embedding of the LSB-steganography core of `src/backend/main.py`
(`hide_message` and `extract_message`) and verification of its specification.

Modelling conventions:
* A PIL pixel is either a plain integer (grayscale) or a tuple of channel
  values; we model it as `Pixel.gray v` or `Pixel.multi cs`.
* A Python string message is modelled as the list of its characters' code
  points (`ord`), a `List Nat`.
* The bit string `binary_message` is modelled as a `List Bool`
  (MSB first, exactly as `format(n, '08b')` lays the bits out).
* Python code that raises an exception (the `r, g, b = pixel` destructuring
  of a tuple whose length is not 3) is modelled with `Option`: `none` means
  the operation raises instead of returning.
-/

namespace Stego

/-- A pixel as `hide_message` / `extract_message` see it: either a plain
integer (single-channel image) or a tuple of channel values. -/
inductive Pixel where
  | gray (v : Nat)
  | multi (cs : List Nat)
  deriving DecidableEq, Repr

/-- The least significant bit of a channel value, as a Bool
(`pixel & 1` in the source). -/
def lsbB (v : Nat) : Bool := v % 2 == 1

/-- `(v & ~1) | bit` from the source: clear the LSB of `v`, then or in the
bit.  On natural numbers this is `2 * (v / 2) + bit`. -/
def setLSB (v : Nat) (b : Bool) : Nat := 2 * (v / 2) + (if b then 1 else 0)

/-- Binary digits by repeated division, MSB first; structural on a fuel
argument that only needs to be at least `n`. -/
def natToBitsAux : Nat → Nat → List Bool
  | _, 0 => []
  | 0, _ + 1 => []
  | fuel + 1, n + 1 => natToBitsAux fuel ((n + 1) / 2) ++ [(n + 1) % 2 == 1]

/-- Binary digits of `n`, MSB first, no leading zeros (`[]` for 0);
the digit sequence of Python's `format(n, 'b')` (up to the zero case,
which `format08b` pads anyway). -/
def natToBits (n : Nat) : List Bool := natToBitsAux n n

/-- Python's `format(n, '08b')`: the binary digits of `n`, MSB first,
zero-padded on the left to at least 8 digits.  For `n ≥ 256` this yields
MORE than 8 bits, exactly as in Python. -/
def format08b (n : Nat) : List Bool :=
  let bs := natToBits n
  List.replicate (8 - bs.length) false ++ bs

/-- The 16-bit terminator marker `'1111111111111110'`. -/
def delimiter : List Bool :=
  [true, true, true, true, true, true, true, true,
   true, true, true, true, true, true, true, false]

/-- `''.join(format(ord(c), '08b') for c in message) + '1111111111111110'`:
the bitstream payload built by `hide_message`. -/
def payloadBits (message : List Nat) : List Bool :=
  (message.map format08b).flatten ++ delimiter

/-- The pixel loop of `hide_message`: walk the pixels, consuming one payload
bit per channel while bits remain (`msg_index < len(binary_message)`), and
copying channels unchanged afterwards.  A tuple pixel is destructured as
`r, g, b = pixel`, which raises (`none`) unless it has exactly 3 channels. -/
def hidePixels : List Pixel → List Bool → Option (List Pixel)
  | [], _ => some []
  | Pixel.gray v :: ps, [] =>
      (hidePixels ps []).map (fun t => Pixel.gray v :: t)
  | Pixel.gray v :: ps, b :: rest =>
      (hidePixels ps rest).map (fun t => Pixel.gray (setLSB v b) :: t)
  | Pixel.multi [r, g, b] :: ps, bits =>
      match bits with
      | [] => (hidePixels ps []).map (fun t => Pixel.multi [r, g, b] :: t)
      | [b1] =>
          (hidePixels ps []).map (fun t => Pixel.multi [setLSB r b1, g, b] :: t)
      | [b1, b2] =>
          (hidePixels ps []).map
            (fun t => Pixel.multi [setLSB r b1, setLSB g b2, b] :: t)
      | b1 :: b2 :: b3 :: rest =>
          (hidePixels ps rest).map
            (fun t => Pixel.multi [setLSB r b1, setLSB g b2, setLSB b b3] :: t)
  | Pixel.multi _ :: _, _ => none

/-- `hide_message(img, message)` from the source: build the payload bit
string, then embed it into the pixels' LSBs in scan order. -/
def hide_message (img : List Pixel) (message : List Nat) : Option (List Pixel) :=
  hidePixels img (payloadBits message)

/-- The LSBs contributed by one pixel in `extract_message`:
`str(pixel & 1)` for an integer pixel, `str(r&1)+str(g&1)+str(b&1)` for a
tuple pixel (raising, i.e. `none`, unless it has exactly 3 channels). -/
def pixelLSBs : Pixel → Option (List Bool)
  | Pixel.gray v => some [lsbB v]
  | Pixel.multi [r, g, b] => some [lsbB r, lsbB g, lsbB b]
  | Pixel.multi _ => none

/-- The accumulation loop of `extract_message`: concatenate the LSBs of all
pixels in scan order. -/
def extractBits : List Pixel → Option (List Bool)
  | [] => some []
  | p :: ps =>
      Option.bind (pixelLSBs p) fun h =>
        Option.map (fun t => h ++ t) (extractBits ps)

/-- Python's `str.find`: index of the first occurrence of `pat` as a
contiguous subsequence of `l`, or `none` for `-1`. -/
def findSubseq (pat : List Bool) : List Bool → Option Nat
  | [] => if pat.isEmpty then some 0 else none
  | b :: rest =>
      if pat.isPrefixOf (b :: rest) then some 0
      else (findSubseq pat rest).map (fun i => i + 1)

/-- Python's `int(s, 2)` on a bit string, MSB first. -/
def bitsToNat (bs : List Bool) : Nat :=
  bs.foldl (fun a b => 2 * a + (if b then 1 else 0)) 0

/-- The chunking `binary_message[i:i+8] for i in range(0, len, 8)`:
consecutive groups of 8 bits, the last group possibly shorter. -/
def chunks8 : List Bool → List (List Bool)
  | [] => []
  | b1 :: b2 :: b3 :: b4 :: b5 :: b6 :: b7 :: b8 :: rest =>
      [b1, b2, b3, b4, b5, b6, b7, b8] :: chunks8 rest
  | l => [l]

/-- Result of `extract_message`: the `"No message found"` sentinel, or the
decoded message (as the list of its characters' code points). -/
inductive DecodeResult where
  | notFound
  | message (m : List Nat)
  deriving DecidableEq, Repr

/-- `extract_message(img)` from the source: collect all channel LSBs in scan
order, find the first occurrence of the 16-bit delimiter, and decode the bits
strictly before it in 8-bit groups via `chr(int(byte, 2))`. -/
def extract_message (img : List Pixel) : Option DecodeResult :=
  (extractBits img).map fun binary_message =>
    match findSubseq delimiter binary_message with
    | none => DecodeResult.notFound
    | some e =>
        DecodeResult.message ((chunks8 (binary_message.take e)).map bitsToNat)

/-- The ordered channel values of a pixel (`channels_of` of spec §4.1);
`none` when the pixel has a tuple shape the source cannot destructure. -/
def pixelChannels : Pixel → Option (List Nat)
  | Pixel.gray v => some [v]
  | Pixel.multi [r, g, b] => some [r, g, b]
  | Pixel.multi _ => none

/-- All channel values of a grid, flattened in the encoder's/decoder's scan
order (pixels in order, channels `r, g, b` within a pixel). -/
def flatChannels : List Pixel → Option (List Nat)
  | [] => some []
  | p :: ps =>
      Option.bind (pixelChannels p) fun h =>
        Option.map (fun t => h ++ t) (flatChannels ps)

/-- Channels per pixel (1 for grayscale, tuple length otherwise). -/
def channelCount : Pixel → Nat
  | Pixel.gray _ => 1
  | Pixel.multi cs => cs.length

/-- `grid.bit_count` of the spec: one LSB slot per channel. -/
def bitCount (img : List Pixel) : Nat := (img.map channelCount).sum

/-- The shape of a pixel: `none` for grayscale, `some k` for a `k`-channel
tuple.  Two grids with equal shape lists have the same mode and geometry. -/
def pshape : Pixel → Option Nat
  | Pixel.gray _ => none
  | Pixel.multi cs => some cs.length

/-- The per-channel effect of the embedding loop on the flattened channel
list: while bits remain, force each channel's LSB to the next bit; then copy
channels unchanged. -/
def applyBits : List Bool → List Nat → List Nat
  | [], vs => vs
  | _, [] => []
  | b :: bs, v :: vs => setLSB v b :: applyBits bs vs

/-! ### Basic facts about the bit-level helpers -/

lemma lsbB_setLSB (v : Nat) (b : Bool) : lsbB (setLSB v b) = b := by
  cases b <;> simp [lsbB, setLSB, Nat.mul_add_mod]

lemma setLSB_mod (v : Nat) (b : Bool) : setLSB v b % 2 = if b then 1 else 0 := by
  cases b <;> simp [setLSB, Nat.mul_add_mod]

lemma setLSB_div (v : Nat) (b : Bool) : setLSB v b / 2 = v / 2 := by
  cases b <;> simp [setLSB, Nat.mul_add_div]

lemma applyBits_nil : ∀ bits : List Bool, applyBits bits [] = []
  | [] => rfl
  | _ :: _ => rfl

lemma length_applyBits (cs : List Nat) :
    ∀ bits : List Bool, (applyBits bits cs).length = cs.length := by
  induction cs with
  | nil => intro bits; simp [applyBits_nil]
  | cons v vs ih =>
      intro bits
      cases bits with
      | nil => simp [applyBits]
      | cons b bs => simp [applyBits, ih]

lemma map_lsbB_applyBits (cs : List Nat) :
    ∀ bits : List Bool,
      (applyBits bits cs).map lsbB
        = bits.take cs.length ++ (cs.map lsbB).drop bits.length := by
  induction cs with
  | nil => intro bits; simp [applyBits_nil]
  | cons v vs ih =>
      intro bits
      cases bits with
      | nil => simp [applyBits]
      | cons b bs => simp [applyBits, lsbB_setLSB, ih]

lemma applyBits_getD_ge (cs : List Nat) :
    ∀ (bits : List Bool) (i : Nat) (d : Nat), bits.length ≤ i →
      (applyBits bits cs).getD i d = cs.getD i d := by
  induction cs with
  | nil => intro bits i d _; simp [applyBits_nil]
  | cons v vs ih =>
      intro bits i d h
      cases bits with
      | nil => simp [applyBits]
      | cons b bs =>
          cases i with
          | zero => simp at h
          | succ j => simpa [applyBits] using ih bs j d (by simpa using h)

lemma applyBits_getD_lt (cs : List Nat) :
    ∀ (bits : List Bool) (i : Nat) (d : Nat), i < bits.length → i < cs.length →
      (applyBits bits cs).getD i d = setLSB (cs.getD i d) (bits.getD i false) := by
  induction cs with
  | nil => intro bits i d _ h2; simp at h2
  | cons v vs ih =>
      intro bits i d h1 h2
      cases bits with
      | nil => simp at h1
      | cons b bs =>
          cases i with
          | zero => simp [applyBits]
          | succ j =>
              simpa [applyBits] using ih bs j d (by simpa using h1) (by simpa using h2)

/-! ### Prefix search (`str.find`) -/

lemma isPrefixOf_true (l₁ : List Bool) :
    ∀ l₂ : List Bool, l₁.isPrefixOf l₂ = true ↔ l₁ <+: l₂ := by
  induction l₁ with
  | nil => intro l₂; simp [List.isPrefixOf]
  | cons a as ih =>
      intro l₂
      cases l₂ with
      | nil => simp [List.isPrefixOf]
      | cons b bs => simp [List.isPrefixOf, List.cons_prefix_cons, ih]

lemma findSubseq_eq_none (pat : List Bool) :
    ∀ l : List Bool, (∀ i, ¬ pat <+: l.drop i) → findSubseq pat l = none := by
  intro l
  induction l with
  | nil =>
      intro h
      have h0 := h 0
      simp only [List.drop_nil, List.prefix_nil] at h0
      have hne : pat.isEmpty = false := by
        cases pat with
        | nil => exact absurd rfl h0
        | cons a as => rfl
      simp [findSubseq, hne]
  | cons b rest ih =>
      intro h
      have h0 := h 0
      simp only [List.drop] at h0
      rw [findSubseq]
      rw [if_neg (by simpa [isPrefixOf_true] using h0)]
      rw [ih (fun i => by simpa using h (i + 1))]
      rfl

lemma findSubseq_eq_some (pat : List Bool) :
    ∀ (l : List Bool) (k : Nat), pat <+: l.drop k →
      (∀ j, j < k → ¬ pat <+: l.drop j) → findSubseq pat l = some k := by
  intro l
  induction l with
  | nil =>
      intro k hocc hfirst
      simp only [List.drop_nil, List.prefix_nil] at hocc
      cases k with
      | zero => simp [findSubseq, hocc]
      | succ j =>
          exact absurd (show pat <+: List.drop 0 ([] : List Bool) by simp [hocc])
            (hfirst 0 (Nat.succ_pos j))
  | cons b rest ih =>
      intro k hocc hfirst
      cases k with
      | zero =>
          simp only [List.drop] at hocc
          rw [findSubseq, if_pos (by simpa [isPrefixOf_true] using hocc)]
      | succ j =>
          have h0 := hfirst 0 (Nat.succ_pos j)
          simp only [List.drop] at h0
          rw [findSubseq, if_neg (by simpa [isPrefixOf_true] using h0)]
          rw [ih j (by simpa using hocc)
            (fun i hi => by simpa using hfirst (i + 1) (by omega))]
          rfl

lemma lt_length_of_prefix_drop {pat l : List Bool} {k : Nat}
    (hp : pat ≠ []) (hocc : pat <+: l.drop k) : k < l.length := by
  by_contra h
  rw [List.drop_eq_nil_of_le (by omega)] at hocc
  exact hp (List.prefix_nil.mp hocc)

lemma prefix_of_prefix_append {p a b : List Bool}
    (hl : p.length ≤ a.length) (h : p <+: a ++ b) : p <+: a := by
  rw [List.prefix_iff_eq_take] at h
  rw [List.take_append_of_le_length hl] at h
  rw [h]
  exact List.take_prefix _ _

lemma delimiter_length : delimiter.length = 16 := rfl

/-! ### Chunking into 8-bit groups -/

lemma chunks8_append8 (l r : List Bool) (h : l.length = 8) :
    chunks8 (l ++ r) = l :: chunks8 r := by
  match l, h with
  | [b1, b2, b3, b4, b5, b6, b7, b8], _ => rfl

lemma chunks8_small (l : List Bool) (h0 : l ≠ []) (h : l.length < 8) :
    chunks8 l = [l] := by
  match l with
  | [] => exact absurd rfl h0
  | [b1] => rfl
  | [b1, b2] => rfl
  | [b1, b2, b3] => rfl
  | [b1, b2, b3, b4] => rfl
  | [b1, b2, b3, b4, b5] => rfl
  | [b1, b2, b3, b4, b5, b6] => rfl
  | [b1, b2, b3, b4, b5, b6, b7] => rfl
  | b1 :: b2 :: b3 :: b4 :: b5 :: b6 :: b7 :: b8 :: rest => simp at h; omega

lemma chunks8_flatten (ls : List (List Bool)) (r : List Bool)
    (h : ∀ l ∈ ls, l.length = 8) :
    chunks8 (ls.flatten ++ r) = ls ++ chunks8 r := by
  induction ls with
  | nil => simp
  | cons l ls ih =>
      rw [List.flatten_cons, List.append_assoc,
        chunks8_append8 l _ (h l (by simp)), ih (fun x hx => h x (by simp [hx]))]
      rfl

lemma chunks8_split_aux :
    ∀ (n : Nat) (l : List Bool), l.length = n → l.length % 8 ≠ 0 →
      ∃ full left : List Bool,
        l = full ++ left ∧ full.length % 8 = 0 ∧ left.length = l.length % 8 ∧
        chunks8 l = chunks8 full ++ [left] := by
  intro n
  induction n using Nat.strong_induction_on with
  | _ n ih =>
  intro l hn hmod
  by_cases h8 : l.length < 8
  · refine ⟨[], l, by simp, by simp, by simp [Nat.mod_eq_of_lt h8], ?_⟩
    have h0 : l ≠ [] := by
      intro h; rw [h] at hmod; simp at hmod
    simp [chunks8_small l h0 h8, chunks8]
  · have hlen : 8 ≤ l.length := by omega
    have hfront : (l.take 8).length = 8 := by
      simp [List.length_take]; omega
    have hsplit : l = l.take 8 ++ l.drop 8 := (List.take_append_drop 8 l).symm
    have hdroplen : (l.drop 8).length = l.length - 8 := by simp
    have hmod' : (l.drop 8).length % 8 ≠ 0 := by
      rw [hdroplen]; omega
    obtain ⟨full, left, heq, hfullmod, hleftlen, hchunks⟩ :=
      ih (l.drop 8).length (by omega) (l.drop 8) rfl hmod'
    clear ih
    refine ⟨l.take 8 ++ full, left, ?_, ?_, ?_, ?_⟩
    · rw [List.append_assoc, ← heq]; exact hsplit
    · simp [List.length_append, hfront]; omega
    · rw [hleftlen, hdroplen]; omega
    · conv_lhs => rw [hsplit]
      rw [chunks8_append8 _ _ hfront, hchunks,
        chunks8_append8 _ _ hfront]
      rfl

/-- Splitting off the incomplete trailing group: when the length is not a
multiple of 8, `chunks8` appends the leftover bits as a final short chunk. -/
lemma chunks8_split (l : List Bool) (hmod : l.length % 8 ≠ 0) :
    ∃ full left : List Bool,
      l = full ++ left ∧ full.length % 8 = 0 ∧ left.length = l.length % 8 ∧
      chunks8 l = chunks8 full ++ [left] :=
  chunks8_split_aux l.length l rfl hmod

/-! ### The fixed-width byte encoding -/

set_option maxRecDepth 4000 in
/-- For every byte value, `format(c, '08b')` has exactly 8 bits and
`int(·, 2)` recovers `c`. -/
lemma format08b_ok : ∀ c : Nat, c < 256 →
    (format08b c).length = 8 ∧ bitsToNat (format08b c) = c := by decide

lemma length_flatten_format08b (m : List Nat) (hm : ∀ c ∈ m, c < 256) :
    ((m.map format08b).flatten).length = 8 * m.length := by
  induction m with
  | nil => simp
  | cons c cs ih =>
      have hc := (format08b_ok c (hm c (by simp))).1
      simp only [List.map_cons, List.flatten_cons, List.length_append, hc,
        ih (fun x hx => hm x (by simp [hx])), List.length_cons]
      ring

lemma map_bitsToNat_format08b (m : List Nat) (hm : ∀ c ∈ m, c < 256) :
    (m.map format08b).map bitsToNat = m := by
  induction m with
  | nil => rfl
  | cons c cs ih =>
      have hc := (format08b_ok c (hm c (by simp))).2
      simp only [List.map_cons, hc, ih (fun x hx => hm x (by simp [hx]))]

/-! ### Flattened channels and the grid traversals -/

lemma flatChannels_length :
    ∀ (g : List Pixel) (cs : List Nat), flatChannels g = some cs →
      cs.length = bitCount g := by
  intro g
  induction g with
  | nil =>
      intro cs h
      simp only [flatChannels, Option.some_inj] at h
      subst h
      rfl
  | cons p ps ih =>
      intro cs h
      simp only [flatChannels] at h
      cases hp : pixelChannels p with
      | none => rw [hp] at h; simp at h
      | some hd =>
          rw [hp] at h
          cases hps : flatChannels ps with
          | none => rw [hps] at h; simp at h
          | some t =>
              rw [hps] at h
              simp at h
              have hhd : hd.length = channelCount p := by
                cases p with
                | gray v =>
                    simp only [pixelChannels, Option.some_inj] at hp
                    subst hp
                    rfl
                | multi cs0 =>
                    match cs0, hp with
                    | [r, g0, b0], hp =>
                        simp only [pixelChannels, Option.some_inj] at hp
                        subst hp
                        rfl
              rw [← h]
              simp [bitCount, List.length_append, hhd, ih t hps]

lemma extractBits_eq (g : List Pixel) :
    extractBits g = Option.map (fun cs => cs.map lsbB) (flatChannels g) := by
  induction g with
  | nil => rfl
  | cons p ps ih =>
      have hpx : pixelLSBs p = Option.map (fun cs => cs.map lsbB) (pixelChannels p) := by
        cases p with
        | gray v => rfl
        | multi cs0 =>
            match cs0 with
            | [] => rfl
            | [a] => rfl
            | [a, b] => rfl
            | [a, b, c] => rfl
            | a :: b :: c :: d :: rest => rfl
      simp only [extractBits, flatChannels, hpx, ih]
      cases hcp : pixelChannels p with
      | none => rfl
      | some hd =>
          cases hfp : flatChannels ps with
          | none => rfl
          | some t => simp [List.map_append]

/-- Master lemma for the encoder loop: on a well-formed grid it succeeds,
preserves every pixel's shape, and its effect on the flattened channel list
is exactly `applyBits`. -/
lemma hidePixels_spec :
    ∀ (g : List Pixel) (bits : List Bool) (cs : List Nat),
      flatChannels g = some cs →
      ∃ g', hidePixels g bits = some g' ∧
        g'.map pshape = g.map pshape ∧
        flatChannels g' = some (applyBits bits cs) := by
  intro g
  induction g with
  | nil =>
      intro bits cs h
      simp only [flatChannels, Option.some_inj] at h
      subst h
      exact ⟨[], rfl, rfl, by simp [flatChannels, applyBits_nil]⟩
  | cons p ps ih =>
      intro bits cs h
      simp only [flatChannels] at h
      cases hp : pixelChannels p with
      | none => rw [hp] at h; simp at h
      | some hd =>
          rw [hp] at h
          cases hps : flatChannels ps with
          | none => rw [hps] at h; simp at h
          | some t =>
              rw [hps] at h
              simp at h
              subst h
              cases p with
              | gray v =>
                  simp only [pixelChannels, Option.some_inj] at hp
                  subst hp
                  cases bits with
                  | nil =>
                      obtain ⟨g', h1, h2, h3⟩ := ih [] t hps
                      refine ⟨Pixel.gray v :: g', ?_, ?_, ?_⟩
                      · simp [hidePixels, h1]
                      · simp [List.map_cons, h2]
                      · simp [flatChannels, pixelChannels, h3, applyBits]
                  | cons b bs =>
                      obtain ⟨g', h1, h2, h3⟩ := ih bs t hps
                      refine ⟨Pixel.gray (setLSB v b) :: g', ?_, ?_, ?_⟩
                      · simp [hidePixels, h1]
                      · simp [List.map_cons, h2, pshape]
                      · simp [flatChannels, pixelChannels, h3, applyBits]
              | multi cs0 =>
                  match cs0, hp with
                  | [r, g0, b0], hp =>
                      simp only [pixelChannels, Option.some_inj] at hp
                      subst hp
                      match bits with
                      | [] =>
                          obtain ⟨g', h1, h2, h3⟩ := ih [] t hps
                          refine ⟨Pixel.multi [r, g0, b0] :: g', ?_, ?_, ?_⟩
                          · simp [hidePixels, h1]
                          · simp [List.map_cons, h2]
                          · simp [flatChannels, pixelChannels, h3, applyBits]
                      | [b1] =>
                          obtain ⟨g', h1, h2, h3⟩ := ih [] t hps
                          refine ⟨Pixel.multi [setLSB r b1, g0, b0] :: g', ?_, ?_, ?_⟩
                          · simp [hidePixels, h1]
                          · simp [List.map_cons, h2, pshape]
                          · simp [flatChannels, pixelChannels, h3, applyBits]
                      | [b1, b2] =>
                          obtain ⟨g', h1, h2, h3⟩ := ih [] t hps
                          refine ⟨Pixel.multi [setLSB r b1, setLSB g0 b2, b0] :: g',
                            ?_, ?_, ?_⟩
                          · simp [hidePixels, h1]
                          · simp [List.map_cons, h2, pshape]
                          · simp [flatChannels, pixelChannels, h3, applyBits]
                      | b1 :: b2 :: b3 :: rest =>
                          obtain ⟨g', h1, h2, h3⟩ := ih rest t hps
                          refine ⟨Pixel.multi
                            [setLSB r b1, setLSB g0 b2, setLSB b0 b3] :: g',
                            ?_, ?_, ?_⟩
                          · simp [hidePixels, h1]
                          · simp [List.map_cons, h2, pshape]
                          · simp [flatChannels, pixelChannels, h3, applyBits]

/-! ### Failure on malformed tuple pixels -/

lemma flatChannels_none :
    ∀ g : List Pixel, (∃ cs0, Pixel.multi cs0 ∈ g ∧ cs0.length ≠ 3) →
      flatChannels g = none := by
  intro g
  induction g with
  | nil => rintro ⟨cs0, hmem, _⟩; simp at hmem
  | cons p ps ih =>
      rintro ⟨cs0, hmem, hlen⟩
      rcases List.mem_cons.mp hmem with hhead | htail
      · subst hhead
        have hnone : pixelChannels (Pixel.multi cs0) = none := by
          match cs0, hlen with
          | [], _ => rfl
          | [a], _ => rfl
          | [a, b], _ => rfl
          | [a, b, c], hlen => exact absurd rfl hlen
          | a :: b :: c :: d :: rest, _ => rfl
        simp [flatChannels, hnone]
      · simp [flatChannels, ih ⟨cs0, htail, hlen⟩]

lemma hidePixels_none :
    ∀ g : List Pixel, (∃ cs0, Pixel.multi cs0 ∈ g ∧ cs0.length ≠ 3) →
      ∀ bits : List Bool, hidePixels g bits = none := by
  intro g
  induction g with
  | nil => rintro ⟨cs0, hmem, _⟩; simp at hmem
  | cons p ps ih =>
      rintro ⟨cs0, hmem, hlen⟩ bits
      rcases List.mem_cons.mp hmem with hhead | htail
      · subst hhead
        match cs0, hlen with
        | [], _ => rfl
        | [a], _ => rfl
        | [a, b], _ => rfl
        | [a, b, c], hlen => exact absurd rfl hlen
        | a :: b :: c :: d :: rest, _ => rfl
      · have ihps := ih ⟨cs0, htail, hlen⟩
        cases p with
        | gray v =>
            cases bits with
            | nil => simp [hidePixels, ihps]
            | cons b bs => simp [hidePixels, ihps]
        | multi cs1 =>
            match cs1 with
            | [] => rfl
            | [a] => rfl
            | [a, b] => rfl
            | [r, g0, b0] =>
                match bits with
                | [] => simp [hidePixels, ihps]
                | [b1] => simp [hidePixels, ihps]
                | [b1, b2] => simp [hidePixels, ihps]
                | b1 :: b2 :: b3 :: rest => simp [hidePixels, ihps]
            | a :: b :: c :: d :: rest => rfl

/-! ## Claim theorems -/

/-- C8: encoding the message `"A"` (code point 65) into the 4-pixel
single-channel grid `[10, 20, 30, 40]` builds the 24-bit payload
`01000001` + terminator, writes only its first 4 bits `0,1,0,0` into the
channel LSBs, and returns the grid `[10, 21, 30, 40]`. -/
theorem C8_example1 :
    (payloadBits [65]).length = 24 ∧
    (payloadBits [65]).take 4 = [false, true, false, false] ∧
    hide_message [Pixel.gray 10, Pixel.gray 20, Pixel.gray 30, Pixel.gray 40] [65]
      = some [Pixel.gray 10, Pixel.gray 21, Pixel.gray 30, Pixel.gray 40] := by
  decide

/-- C9: for the 12-pixel single-channel grid of all value 100 and message
`"Hi"` (codes 72, 105; 32 payload bits against 12 bits of capacity),
encoding succeeds but only the first 12 payload bits are written — the
terminator is never fully written — and decoding the result returns the
`NotFound` sentinel. -/
theorem C9_example2 :
    8 * 2 + 16 > bitCount (List.replicate 12 (Pixel.gray 100)) ∧
    (hide_message (List.replicate 12 (Pixel.gray 100)) [72, 105]).bind extractBits
      = some ((payloadBits [72, 105]).take 12) ∧
    (hide_message (List.replicate 12 (Pixel.gray 100)) [72, 105]).bind extract_message
      = some DecodeResult.notFound := by
  decide

/-- C4 evidence (the claim is about intended behavior the code does not
implement): for the character with code point 256, `format(ord(c), '08b')`
produces a 9-bit field instead of failing, so the payload for the 1-character
message `[256]` is 25 bits instead of 8·1+16 = 24, and `hide_message`
succeeds (returns a grid) rather than raising any error. -/
theorem C4_no_range_error :
    (format08b 256).length = 9 ∧
    (payloadBits [256]).length = 25 ∧
    (payloadBits [256]).length ≠ 8 * 1 + 16 ∧
    (hide_message (List.replicate 25 (Pixel.gray 0)) [256]).isSome = true := by
  decide

/-- C10: both operations destructure a tuple pixel as `r, g, b = pixel`, so
any grid containing a tuple pixel whose channel count is not 3 (for example
a 4-channel RGBA pixel) makes both `hide_message` and `extract_message`
fail at that destructuring instead of processing the pixel. -/
theorem C10_tuple_shape (g : List Pixel) (m : List Nat)
    (h : ∃ cs0, Pixel.multi cs0 ∈ g ∧ cs0.length ≠ 3) :
    hide_message g m = none ∧ extract_message g = none := by
  constructor
  · exact hidePixels_none g h (payloadBits m)
  · rw [extract_message, extractBits_eq, flatChannels_none g h]
    rfl

/-- Witness for C10 at the concrete RGBA-style grid `[(1, 2, 3, 4)]`. -/
theorem C10_tuple_shape_witness :
    hide_message [Pixel.multi [1, 2, 3, 4]] [] = none ∧
    extract_message [Pixel.multi [1, 2, 3, 4]] = none :=
  C10_tuple_shape [Pixel.multi [1, 2, 3, 4]] []
    ⟨[1, 2, 3, 4], by decide, by decide⟩

/-- Counterexample to C1 as stated: the grid of 32 even-valued single-channel
pixels has bit capacity 32 = 8·2+16, and the message `[255, 254]`
(`"ÿþ"`) has all code points ≤ 255, yet its 16 message bits
`1111111111111110` are themselves the terminator pattern, so decoding the
encoded grid finds the terminator at position 0 and returns the empty
message instead of `[255, 254]`. -/
theorem C1_counterexample :
    (∀ c ∈ [255, 254], c ≤ 255) ∧
    8 * 2 + 16 ≤ bitCount (List.replicate 32 (Pixel.gray 0)) ∧
    (hide_message (List.replicate 32 (Pixel.gray 0)) [255, 254]).bind extract_message
      = some (DecodeResult.message []) ∧
    DecodeResult.message [] ≠ DecodeResult.message [255, 254] := by
  decide

/-- Counterexample to C7 as stated: for the 17-pixel single-channel grid
with LSB stream `11111111111111110`, the first terminator occurrence starts
at index 1, so the pre-terminator bit string is the single bit `1` (not a
multiple of 8, and zero complete 8-bit groups).  The code converts that
incomplete trailing group via `chr(int('1', 2))` and returns the one-character
message `[1]`, rather than ignoring the leftover bits and returning `[]`. -/
theorem C7_counterexample :
    (extractBits (List.replicate 16 (Pixel.gray 1) ++ [Pixel.gray 0])).bind
        (findSubseq delimiter) = some 1 ∧
    extract_message (List.replicate 16 (Pixel.gray 1) ++ [Pixel.gray 0])
      = some (DecodeResult.message [1]) ∧
    DecodeResult.message [1] ≠ DecodeResult.message [] := by
  decide

/-- C2: on a well-formed grid (one whose channels the code can enumerate),
`hide_message` succeeds and returns a grid with the same number of pixels
and the same per-pixel shape (mode/geometry); in the flattened scan-order
channel list, every channel at a position at or beyond the payload length is
identical to the input channel, and every channel at a position before the
payload length has LSB equal to the corresponding payload bit and upper
bits (value divided by 2) equal to those of the input channel. -/
theorem C2_frame_effect (g : List Pixel) (m : List Nat) (cs : List Nat)
    (hg : flatChannels g = some cs) :
    ∃ g' cs', hide_message g m = some g' ∧
      g'.length = g.length ∧
      g'.map pshape = g.map pshape ∧
      flatChannels g' = some cs' ∧
      cs'.length = cs.length ∧
      (∀ i, (payloadBits m).length ≤ i → cs'.getD i 0 = cs.getD i 0) ∧
      (∀ i, i < (payloadBits m).length → i < cs.length →
        cs'.getD i 0 % 2 = (if (payloadBits m).getD i false then 1 else 0) ∧
        cs'.getD i 0 / 2 = cs.getD i 0 / 2) := by
  obtain ⟨g', h1, h2, h3⟩ := hidePixels_spec g (payloadBits m) cs hg
  refine ⟨g', applyBits (payloadBits m) cs, h1, ?_, h2, h3,
    length_applyBits cs (payloadBits m), ?_, ?_⟩
  · have := congrArg List.length h2
    simpa using this
  · intro i hi
    exact applyBits_getD_ge cs (payloadBits m) i 0 hi
  · intro i hi hics
    rw [applyBits_getD_lt cs (payloadBits m) i 0 hi hics]
    exact ⟨setLSB_mod _ _, setLSB_div _ _⟩

/-- Witness for C2 at the grid `[(8, 9, 10)]` and message `[]`. -/
theorem C2_frame_effect_witness :
    ∃ g' cs',
      hide_message [Pixel.multi [8, 9, 10]] [] = some g' ∧
      g'.length = [Pixel.multi [8, 9, 10]].length ∧
      g'.map pshape = [Pixel.multi [8, 9, 10]].map pshape ∧
      flatChannels g' = some cs' ∧
      cs'.length = [8, 9, 10].length ∧
      (∀ i, (payloadBits []).length ≤ i → cs'.getD i 0 = [8, 9, 10].getD i 0) ∧
      (∀ i, i < (payloadBits []).length → i < [8, 9, 10].length →
        cs'.getD i 0 % 2 = (if (payloadBits []).getD i false then 1 else 0) ∧
        cs'.getD i 0 / 2 = [8, 9, 10].getD i 0 / 2) :=
  C2_frame_effect [Pixel.multi [8, 9, 10]] [] [8, 9, 10] (by decide)

/-- Payload bit strings are always at least 16 bits (message bytes are at
least 8 bits each, and the terminator adds 16). -/
lemma payloadBits_length_ge (m : List Nat) :
    8 * m.length + 16 ≤ (payloadBits m).length := by
  have h8 : ∀ ls : List Nat, 8 * ls.length ≤ ((ls.map format08b).flatten).length := by
    intro ls
    induction ls with
    | nil => simp
    | cons c cs ih =>
        have hc : 8 ≤ (format08b c).length := by
          simp only [format08b, List.length_append, List.length_replicate]
          omega
        simp only [List.map_cons, List.flatten_cons, List.length_append,
          List.length_cons]
        omega
  have := h8 m
  simp only [payloadBits, List.length_append, delimiter_length]
  omega

/-- C5: when the payload exceeds the grid's bit capacity, `hide_message`
does not fail: it returns a grid with as many pixels as the input whose
scan-order LSB stream is exactly the first `bitCount g` bits of the payload
(message bits followed by the 16-bit terminator), all later payload bits
being dropped. -/
theorem C5_truncation (g : List Pixel) (m : List Nat) (cs : List Nat)
    (hg : flatChannels g = some cs)
    (hcap : 8 * m.length + 16 > bitCount g) :
    ∃ g' cs', hide_message g m = some g' ∧
      g'.length = g.length ∧
      flatChannels g' = some cs' ∧
      cs'.map lsbB = (payloadBits m).take (bitCount g) := by
  obtain ⟨g', h1, h2, h3⟩ := hidePixels_spec g (payloadBits m) cs hg
  have hcs : cs.length = bitCount g := flatChannels_length g cs hg
  have hple : cs.length ≤ (payloadBits m).length := by
    have := payloadBits_length_ge m
    omega
  refine ⟨g', applyBits (payloadBits m) cs, h1, ?_, h3, ?_⟩
  · have := congrArg List.length h2
    simpa using this
  · rw [map_lsbB_applyBits]
    rw [List.drop_eq_nil_of_le (by simpa using hple)]
    rw [List.append_nil, hcs]

/-- Witness for C5: one grayscale pixel cannot hold the 16-bit terminator of
the empty message; the single written bit is the payload's first bit. -/
theorem C5_truncation_witness :
    ∃ g' cs', hide_message [Pixel.gray 0] [] = some g' ∧
      g'.length = [Pixel.gray 0].length ∧
      flatChannels g' = some cs' ∧
      cs'.map lsbB = (payloadBits []).take (bitCount [Pixel.gray 0]) :=
  C5_truncation [Pixel.gray 0] [] [0] (by decide) (by decide)

/-- C6: on any well-formed grid whose scan-order LSB stream contains no
occurrence of the 16-bit terminator pattern at any position,
`extract_message` returns the `NotFound` sentinel (and in particular does
not raise: it returns a value). -/
theorem C6_not_found (g : List Pixel) (cs : List Nat)
    (hg : flatChannels g = some cs)
    (hno : ∀ i, ¬ delimiter <+: ((cs.map lsbB).drop i)) :
    extract_message g = some DecodeResult.notFound := by
  have hbits : extractBits g = some (cs.map lsbB) := by
    rw [extractBits_eq, hg]
    rfl
  rw [extract_message, hbits, Option.map_some']
  rw [findSubseq_eq_none delimiter (cs.map lsbB) hno]

/-- Witness for C6 at the all-even (all LSBs zero) grid `[2, 4]`. -/
theorem C6_not_found_witness :
    extract_message [Pixel.gray 2, Pixel.gray 4] = some DecodeResult.notFound :=
  C6_not_found [Pixel.gray 2, Pixel.gray 4] [2, 4] (by decide)
    (by
      intro i
      match i with
      | 0 => decide
      | 1 => decide
      | n + 2 =>
          rw [show (([2, 4].map lsbB).drop (n + 2)) = ([] : List Bool) from
            List.drop_eq_nil_of_le (by simp)]
          decide)

/-- C3: `extract_message` is the decoder the spec describes: with `cs` the
channels in the encoder's scan order (pixels in order, `r, g, b` within a
pixel), the bitstream is the LSB of each channel of `cs` in order; if the
16-bit terminator pattern occurs nowhere in it the result is `NotFound`,
and if its first exact occurrence starts at `k` the result is the message
decoded from exactly the bits strictly before position `k`. -/
theorem C3_decoder_description (g : List Pixel) (cs : List Nat)
    (hg : flatChannels g = some cs) :
    ((∀ i, ¬ delimiter <+: ((cs.map lsbB).drop i)) →
        extract_message g = some DecodeResult.notFound) ∧
    (∀ k, delimiter <+: ((cs.map lsbB).drop k) →
        (∀ j, j < k → ¬ delimiter <+: ((cs.map lsbB).drop j)) →
        extract_message g = some (DecodeResult.message
          ((chunks8 ((cs.map lsbB).take k)).map bitsToNat))) := by
  have hbits : extractBits g = some (cs.map lsbB) := by
    rw [extractBits_eq, hg]
    rfl
  constructor
  · intro hno
    rw [extract_message, hbits, Option.map_some']
    rw [findSubseq_eq_none delimiter (cs.map lsbB) hno]
  · intro k hocc hfirst
    rw [extract_message, hbits, Option.map_some']
    rw [findSubseq_eq_some delimiter (cs.map lsbB) k hocc hfirst]

/-- Witness for C3 at the 16-pixel grid whose LSB stream is exactly the
terminator: the first occurrence starts at 0 and the decoded message is
empty. -/
theorem C3_decoder_description_witness :
    extract_message (List.replicate 15 (Pixel.gray 1) ++ [Pixel.gray 0])
      = some (DecodeResult.message []) :=
  (C3_decoder_description (List.replicate 15 (Pixel.gray 1) ++ [Pixel.gray 0])
      (List.replicate 15 1 ++ [0]) (by decide)).2 0 (by decide)
    (fun j hj => absurd hj (Nat.not_lt_zero j))

/-- C7 as amended: when the bits strictly before the first terminator
occurrence do not form a whole number of 8-bit groups, `extract_message`
does NOT ignore the incomplete trailing group: the returned message is the
characters of the complete 8-bit groups followed by one extra character
whose code point is the unsigned integer value of the leftover bits. -/
theorem C7_trailing_group (g : List Pixel) (cs : List Nat) (k : Nat)
    (hg : flatChannels g = some cs)
    (hocc : delimiter <+: ((cs.map lsbB).drop k))
    (hfirst : ∀ j, j < k → ¬ delimiter <+: ((cs.map lsbB).drop j))
    (hmod : k % 8 ≠ 0) :
    ∃ full left : List Bool,
      (cs.map lsbB).take k = full ++ left ∧
      full.length % 8 = 0 ∧
      left.length = k % 8 ∧
      extract_message g
        = some (DecodeResult.message
            ((chunks8 full).map bitsToNat ++ [bitsToNat left])) := by
  have hbits : extractBits g = some (cs.map lsbB) := by
    rw [extractBits_eq, hg]
    rfl
  have hk : k < (cs.map lsbB).length :=
    lt_length_of_prefix_drop (by decide) hocc
  have htklen : ((cs.map lsbB).take k).length = k := by
    rw [List.length_take]
    exact Nat.min_eq_left (le_of_lt hk)
  obtain ⟨full, left, heq, hfullmod, hleftlen, hchunks⟩ :=
    chunks8_split ((cs.map lsbB).take k) (by rw [htklen]; exact hmod)
  refine ⟨full, left, heq, hfullmod, by rw [hleftlen, htklen], ?_⟩
  rw [extract_message, hbits, Option.map_some']
  rw [findSubseq_eq_some delimiter (cs.map lsbB) k hocc hfirst]
  simp only [hchunks, List.map_append, List.map_cons, List.map_nil]

/-- Witness for C7's amended statement at the 17-pixel grid whose LSB stream
is sixteen 1s followed by a 0: the terminator first occurs at index 1, the
single leftover bit `1` is decoded as the extra character `chr(1)`. -/
theorem C7_trailing_group_witness :
    ∃ full left : List Bool,
      ((List.replicate 16 1 ++ [0] : List Nat).map lsbB).take 1 = full ++ left ∧
      full.length % 8 = 0 ∧
      left.length = 1 % 8 ∧
      extract_message (List.replicate 16 (Pixel.gray 1) ++ [Pixel.gray 0])
        = some (DecodeResult.message
            ((chunks8 full).map bitsToNat ++ [bitsToNat left])) :=
  C7_trailing_group (List.replicate 16 (Pixel.gray 1) ++ [Pixel.gray 0])
    (List.replicate 16 1 ++ [0]) 1 (by decide) (by decide)
    (by
      intro j hj
      match j, hj with
      | 0, _ => decide)
    (by decide)

/-- C1 as amended: the round trip `decode(encode(g, m)) = m` holds for every
well-formed grid `g` and message `m` over code points ≤ 255 with
`8*len(m)+16 ≤ g.bit_count`, PROVIDED the 16-bit terminator pattern does not
occur in the payload bitstream at any position earlier than `8*len(m)`
(the counterexample `[255, 254]` shows the original unconditional claim is
false). -/
theorem C1_round_trip (g : List Pixel) (m : List Nat) (cs : List Nat)
    (hg : flatChannels g = some cs)
    (hm : ∀ c ∈ m, c ≤ 255)
    (hcap : 8 * m.length + 16 ≤ bitCount g)
    (hno : ∀ j, j < 8 * m.length → ¬ delimiter <+: ((payloadBits m).drop j)) :
    ∃ g', hide_message g m = some g' ∧
      extract_message g' = some (DecodeResult.message m) := by
  have hm' : ∀ c ∈ m, c < 256 := fun c hc => Nat.lt_succ_of_le (hm c hc)
  have hmsglen : ((m.map format08b).flatten).length = 8 * m.length :=
    length_flatten_format08b m hm'
  have hplen : (payloadBits m).length = 8 * m.length + 16 := by
    rw [payloadBits, List.length_append, hmsglen, delimiter_length]
  have hcs : cs.length = bitCount g := flatChannels_length g cs hg
  obtain ⟨g', h1, h2, h3⟩ := hidePixels_spec g (payloadBits m) cs hg
  refine ⟨g', h1, ?_⟩
  have hbits : extractBits g' = some ((applyBits (payloadBits m) cs).map lsbB) := by
    rw [extractBits_eq, h3]
    rfl
  have hstream : (applyBits (payloadBits m) cs).map lsbB
      = payloadBits m ++ ((cs.map lsbB).drop (payloadBits m).length) := by
    rw [map_lsbB_applyBits]
    rw [List.take_of_length_le (by omega)]
  have hassoc : payloadBits m ++ ((cs.map lsbB).drop (payloadBits m).length)
      = (m.map format08b).flatten
        ++ (delimiter ++ ((cs.map lsbB).drop (payloadBits m).length)) := by
    rw [payloadBits, List.append_assoc]
  have hfind : findSubseq delimiter
      (payloadBits m ++ ((cs.map lsbB).drop (payloadBits m).length))
      = some (8 * m.length) := by
    apply findSubseq_eq_some
    · rw [hassoc, ← hmsglen, List.drop_left]
      exact List.prefix_append _ _
    · intro j hj hpre
      rw [List.drop_append_of_le_length (by omega)] at hpre
      have hlen16 : delimiter.length ≤ ((payloadBits m).drop j).length := by
        rw [delimiter_length, List.length_drop, hplen]
        omega
      exact hno j hj (prefix_of_prefix_append hlen16 hpre)
  have htake : (payloadBits m
        ++ ((cs.map lsbB).drop (payloadBits m).length)).take (8 * m.length)
      = (m.map format08b).flatten := by
    rw [hassoc, ← hmsglen, List.take_left]
  have hchunks : chunks8 ((m.map format08b).flatten) = m.map format08b := by
    have := chunks8_flatten (m.map format08b) []
      (by
        intro l hl
        obtain ⟨c, hc, rfl⟩ := List.mem_map.mp hl
        exact (format08b_ok c (hm' c hc)).1)
    simpa [chunks8] using this
  rw [extract_message, hbits, Option.map_some', hstream, hfind]
  simp only [htake, hchunks, map_bitsToNat_format08b m hm']

/-- Witness for the amended C1: message `"A"` (code 65) in a 24-pixel
all-zero grayscale grid round-trips. -/
theorem C1_round_trip_witness :
    ∃ g', hide_message (List.replicate 24 (Pixel.gray 0)) [65] = some g' ∧
      extract_message g' = some (DecodeResult.message [65]) :=
  C1_round_trip (List.replicate 24 (Pixel.gray 0)) [65] (List.replicate 24 0)
    (by decide) (by decide) (by decide) (by decide)

end Stego
